import Mathlib

/-!
Verification of the analytics_toolkit transform-pipeline core.

Shallow embedding of `src/analytics_toolkit/data/transformers.py`.
Python lists become `List α`, dicts (used as ordered maps) become
association lists in insertion order, and the dynamically-typed values
that flow through `ReduceTransform` (where the Python `None` sentinel
matters) become the concrete type `PyVal`.

Failure modes are modelled by the inductive `PyError`.  The source module
defines no exception classes of its own; it fails via built-in exceptions
at exactly two places of interest, and the specification's error taxonomy
gives those failure modes abstract names:
* `next(iterator)` on an empty iterator in `ReduceTransform.__call__`
  raises `StopIteration`; the spec calls this failure `EmptySequenceError`.
* `Pipeline.__or__` raises `TypeError` on an operand that is neither a
  `Pipeline` nor callable; the spec calls this `UnsupportedCompositionError`.
* `item[key]` on a record lacking the key in `GroupByTransform.__call__`
  raises `KeyError`.
-/

set_option autoImplicit false

universe u v w x

namespace Transformers

/-- Failure modes of the embedded code (see the module docstring for the
correspondence with the Python exceptions raised by the source). -/
inductive PyError where
  /-- The `StopIteration` from `next` on an empty iterator
      (spec taxonomy: `EmptySequenceError`). -/
  | emptySequenceError
  /-- The `TypeError` from `Pipeline.__or__` on an unrecognized operand
      (spec taxonomy: `UnsupportedCompositionError`). -/
  | unsupportedCompositionError
  /-- The `KeyError` from a record subscript on a missing field. -/
  | keyError (field : String)
  deriving DecidableEq, Repr

/-- A fragment of Python's dynamically-typed value universe, used where the
source code distinguishes the value `None` from everything else
(`ReduceTransform.__init__` stores `initial=None` as a default and
`__call__` tests `self.initial is not None`). -/
inductive PyVal where
  | none
  | int (n : Int)
  | str (s : String)
  deriving DecidableEq, Repr

/-! ## ReduceTransform

```python
class ReduceTransform(Transform[list[T], U]):
    def __init__(self, reducer, initial=None):
        self.reducer = reducer
        self.initial = initial

    def __call__(self, data):
        if self.initial is not None:
            result = self.initial
            for item in data:
                result = self.reducer(result, item)
            return result
        else:
            iterator = iter(data)
            result = next(iterator)
            for item in iterator:
                result = self.reducer(result, item)
            return result
```

A `ReduceTransform` constructed without an `initial` argument stores the
Python value `None` (here `PyVal.none`); constructing it with the explicit
argument `initial=None` stores exactly the same value, so the two are
indistinguishable, which is what the `is not None` test acts on. -/

/-- Embedding of `ReduceTransform.__call__`.  The `for` loops are left folds; the
`initial is not None` test becomes a comparison with `PyVal.none`. -/
def reduceCall (reducer : PyVal → PyVal → PyVal) (initial : PyVal)
    (data : List PyVal) : Except PyError PyVal :=
  if initial ≠ PyVal.none then
    Except.ok (data.foldl reducer initial)
  else
    match data with
    | [] => Except.error PyError.emptySequenceError
    | x :: xs => Except.ok (xs.foldl reducer x)

/-! ## Pipeline composition (`Pipeline.__or__`)

```python
    def __or__(self, other):
        if isinstance(other, Pipeline):
            return Pipeline(self._transforms + other._transforms)
        elif callable(other):
            return Pipeline(self._transforms + [other])
        raise TypeError(f"Cannot combine Pipeline with {type(other)}")
```

A `Pipeline` owns a list of transforms (callables `α → α` once the
pipeline is homogeneous enough to run).  The right-hand operand of `|` is
classified by the `isinstance`/`callable` tests into three disjoint
shapes, which the inductive `Operand` mirrors; `other` carries the
payload of a value that is neither a `Pipeline` nor callable. -/

/-- Possible right-hand operands of `Pipeline.__or__`: another pipeline,
a bare callable, or any non-callable non-pipeline value (payload `v`). -/
inductive Operand (α : Type u) (β : Type v) where
  | pipeline (transforms : List (α → α))
  | callable (f : α → α)
  | other (v : β)

/-- Embedding of `Pipeline.__or__`: the `isinstance`/`callable`/`raise` chain. -/
def pipelineOr {α : Type u} {β : Type v} (transforms : List (α → α)) :
    Operand α β → Except PyError (List (α → α))
  | Operand.pipeline us => Except.ok (transforms ++ us)
  | Operand.callable f => Except.ok (transforms ++ [f])
  | Operand.other _ => Except.error PyError.unsupportedCompositionError

/-! ## ComposedTransform

```python
class Transform(ABC, Generic[T, U]):
    def __or__(self, other):
        return ComposedTransform(self, other)

class ComposedTransform(Transform[T, U]):
    def __init__(self, first, second):
        self.first = first
        self.second = second

    def __call__(self, data):
        return self.second(self.first(data))
```
-/

/-- Embedding of `ComposedTransform`: an ordered pair of transforms. -/
structure ComposedTransform (α : Type u) (β : Type v) (γ : Type w) where
  first : α → β
  second : β → γ

/-- Embedding of `ComposedTransform.__call__`: apply `first`, feed its output to `second`. -/
def ComposedTransform.call {α : Type u} {β : Type v} {γ : Type w}
    (c : ComposedTransform α β γ) (data : α) : γ :=
  c.second (c.first data)

/-- Embedding of `Transform.__or__`: build a `ComposedTransform` from the two operands. -/
def transformOr {α : Type u} {β : Type v} {γ : Type w}
    (f : α → β) (g : β → γ) : ComposedTransform α β γ :=
  ⟨f, g⟩

/-! ## WindowTransform

```python
class WindowTransform(Transform[list[T], list[list[T]]]):
    def __init__(self, size, step=None):
        self.size = size
        self.step = step or size

    def __call__(self, data):
        windows = []
        i = 0
        while i + self.size <= len(data):
            windows.append(data[i:i + self.size])
            i += self.step
        return windows
```
-/

/-- The constructor line `self.step = step or size`: a falsy `step`
(`None` or `0`) is replaced by `size`. -/
def windowStep (size : Nat) : Option Nat → Nat
  | Option.none => size
  | Option.some t => if t = 0 then size else t

/-- The `while` loop of `WindowTransform.__call__`, at loop counter `i`.
`data[i:i + size]` is `(data.drop i).take size`.  The loop only
terminates for a positive step, so the guard carries `0 < step`; the
source loops forever when `step = 0` survives construction (only possible
with `size = 0`), a case outside every claim. -/
def windowLoop {α : Type u} (size step : Nat) (data : List α) (i : Nat) :
    List (List α) :=
  if h : 0 < step ∧ i + size ≤ data.length then
    ((data.drop i).take size) :: windowLoop size step data (i + step)
  else
    []
termination_by data.length + 1 - i
decreasing_by omega

/-- Embedding of `WindowTransform(size, step).__call__(data)`: constructor
normalization followed by the loop from `i = 0`. -/
def windowCall {α : Type u} (size : Nat) (step : Option Nat)
    (data : List α) : List (List α) :=
  windowLoop size (windowStep size step) data 0

/-! ## BatchTransform

```python
class BatchTransform(Transform[list[T], list[list[T]]]):
    def __init__(self, batch_size):
        self.batch_size = batch_size

    def __call__(self, data):
        return [
            data[i:i + self.batch_size]
            for i in range(0, len(data), self.batch_size)
        ]
```
-/

/-- The comprehension of `BatchTransform.__call__`: one chunk per
`i ∈ range(0, len(data), batch_size)`, i.e. while `i < len(data)`
advancing by `batch_size`.  `range` with step `0` raises `ValueError` in
Python, so the guard carries `0 < batchSize`; every claim assumes a
positive batch size. -/
def batchLoop {α : Type u} (batchSize : Nat) (data : List α) (i : Nat) :
    List (List α) :=
  if h : 0 < batchSize ∧ i < data.length then
    ((data.drop i).take batchSize) :: batchLoop batchSize data (i + batchSize)
  else
    []
termination_by data.length - i
decreasing_by omega

/-- Embedding of `BatchTransform(batch_size).__call__(data)`. -/
def batchCall {α : Type u} (batchSize : Nat) (data : List α) :
    List (List α) :=
  batchLoop batchSize data 0

/-! ## CacheTransform

```python
class CacheTransform(Transform[T, T]):
    def __init__(self, cache_key=None):
        self._cache = {}
        self._key_fn = cache_key or (lambda x: id(x))

    def __call__(self, data):
        key = self._key_fn(data)
        if key not in self._cache:
            self._cache[key] = data
        return self._cache[key]
```

Python object identity matters here: `id(x)` is the in-memory address of
`x`, so two distinct but `==`-equal objects get different default keys.
An input is therefore modelled as a value together with its address. -/

/-- A Python object: an address (what `id` returns) plus its value. -/
structure PyObj (α : Type u) where
  addr : Nat
  val : α
  deriving DecidableEq, Repr

/-- The default cache key of `CacheTransform.__init__`: `lambda x: id(x)`. -/
def defaultCacheKey {α : Type u} (x : PyObj α) : Nat :=
  x.addr

/-- Embedding of `CacheTransform.__call__` acting on the memo table (a dict, modelled
as an insertion-ordered association list): compute the key; if absent,
store `data` under it (at the end, as dict insertion does); return the
stored object together with the updated table. -/
def cacheApply {α : Type u} {κ : Type v} [DecidableEq κ]
    (keyFn : PyObj α → κ) (cache : List (κ × PyObj α)) (data : PyObj α) :
    PyObj α × List (κ × PyObj α) :=
  let key := keyFn data
  match cache.lookup key with
  | Option.some stored => (stored, cache)
  | Option.none => (data, cache ++ [(key, data)])

/-! ## GroupByTransform

```python
class GroupByTransform(Transform[list[dict], dict[Any, list[dict]]]):
    def __init__(self, key):
        self.key = key

    def __call__(self, data):
        groups = {}
        for item in data:
            k = item[self.key] if isinstance(self.key, str) else self.key(item)
            if k not in groups:
                groups[k] = []
            groups[k].append(item)
        return groups
```

`groups` is a Python dict, i.e. an insertion-ordered map: modelled as an
association list whose entries appear in first-seen key order.  Records
(`item`, a dict) are association lists `String × V`, and `item[self.key]`
is a lookup that raises `KeyError` when the field is missing.  The
per-item `isinstance` dispatch is factored into a key extractor
`α → Except PyError κ`; `fieldKey` and `fnKey` below are the two shapes
it takes in the source. -/

/-- A record: a dict with string fields, as fed to `GroupBy`. -/
abbrev Rec (V : Type u) : Type u := List (String × V)

/-- The `isinstance(self.key, str)` branch: `item[self.key]`, failing
with `KeyError` when the field is absent. -/
def fieldKey {V : Type u} (name : String) (item : Rec V) :
    Except PyError V :=
  match item.lookup name with
  | Option.some v => Except.ok v
  | Option.none => Except.error (PyError.keyError name)

/-- The key-function branch: `self.key(item)` (user functions are pure in
the embedding, so this never fails). -/
def fnKey {α : Type u} {κ : Type v} (f : α → κ) (item : α) :
    Except PyError κ :=
  Except.ok (f item)

/-- The body of the `for` loop: `if k not in groups: groups[k] = []` then
`groups[k].append(item)` — append `item` to the entry for `k`, creating
the entry at the end of the dict when the key is new. -/
def groupsInsert {α : Type u} {κ : Type v} [DecidableEq κ] :
    List (κ × List α) → κ → α → List (κ × List α)
  | [], k, x => [(k, [x])]
  | (k', xs) :: rest, k, x =>
    if k' = k then
      (k', xs ++ [x]) :: rest
    else
      (k', xs) :: groupsInsert rest k x

/-- The `for` loop of `GroupByTransform.__call__`, threading the `groups`
dict; a `KeyError` from `item[self.key]` aborts the call. -/
def groupByAux {α : Type u} {κ : Type v} [DecidableEq κ]
    (keyOf : α → Except PyError κ) :
    List α → List (κ × List α) → Except PyError (List (κ × List α))
  | [], groups => Except.ok groups
  | x :: xs, groups =>
    match keyOf x with
    | Except.error e => Except.error e
    | Except.ok k => groupByAux keyOf xs (groupsInsert groups k x)

/-- Embedding of `GroupByTransform.__call__` for an arbitrary key extractor. -/
def groupByCall {α : Type u} {κ : Type v} [DecidableEq κ]
    (keyOf : α → Except PyError κ) (data : List α) :
    Except PyError (List (κ × List α)) :=
  groupByAux keyOf data []

/-- Concatenation of the groups' element lists, in the map's (first-seen)
key order. -/
def joinSnd {α : Type u} {κ : Type v} (groups : List (κ × List α)) :
    List α :=
  (groups.map Prod.snd).flatten

/-! ## LazyPipeline

```python
class LazyPipeline(Generic[T, U]):
    def __init__(self, source, transforms=None):
        self._source = source
        self._transforms = transforms or []

    def collect(self):
        result = self._source() if callable(self._source) else self._source
        for transform in self._transforms:
            result = transform(result)
        return result
```

The source is either a stored value or a zero-argument producer.  A
producer may have side effects (the spec's counter scenario), so it is
embedded in state-passing style as `σ → α × σ`: calling it consumes a
world state and yields a value and the successor state.  `collect`
likewise threads the state; a value source leaves it untouched. -/

/-- A `LazyPipeline` source: `callable(self._source)` distinguishes a
zero-argument producer from a plain stored value. -/
inductive Source (σ : Type u) (α : Type v) where
  | value (v : α)
  | producer (f : σ → α × σ)

/-- Embedding of `LazyPipeline`: a source plus an ordered transform list. -/
structure LazyPipeline (σ : Type u) (α : Type v) where
  source : Source σ α
  transforms : List (α → α)

/-- Embedding of `LazyPipeline.collect`: resolve the source (invoking the producer
once when the source is callable, else taking the stored value), then
fold the resolved value through the transforms in order. -/
def LazyPipeline.collect {σ : Type u} {α : Type v}
    (p : LazyPipeline σ α) (s : σ) : α × σ :=
  let resolved : α × σ :=
    match p.source with
    | Source.value v => (v, s)
    | Source.producer f => f s
  (p.transforms.foldl (fun result transform => transform result) resolved.1,
    resolved.2)

/-! ## Supporting lemmas -/

/-- Closed form: `batchLoop` from index `i` is the list of slices
`data[i + k*b : i + k*b + b]` for `k` below the remaining chunk count. -/
lemma batchLoop_eq_map {α : Type u} (b : Nat) (data : List α)
    (hb : 0 < b) :
    ∀ i, batchLoop b data i
      = (List.range ((data.length - i + b - 1) / b)).map
          (fun k => (data.drop (i + k * b)).take b) := by
  have H : ∀ m i, data.length - i ≤ m → batchLoop b data i
      = (List.range ((data.length - i + b - 1) / b)).map
          (fun k => (data.drop (i + k * b)).take b) := by
    intro m
    induction m with
    | zero =>
      intro i hi
      rw [batchLoop, dif_neg (by omega)]
      have hz : (data.length - i + b - 1) / b = 0 :=
        Nat.div_eq_of_lt (by omega)
      rw [hz]
      rfl
    | succ m ih =>
      intro i hi
      rw [batchLoop]
      split
      · rename_i h
        rw [ih (i + b) (by omega)]
        have hcount : (data.length - (i + b) + b - 1) / b + 1
            = (data.length - i + b - 1) / b := by
          rcases le_or_lt (data.length - i) b with hle | hlt
          · have h1 : data.length - (i + b) = 0 := by omega
            rw [h1]
            have h2 : (0 + b - 1) / b = 0 := Nat.div_eq_of_lt (by omega)
            rw [h2]
            symm
            apply Nat.div_eq_of_lt_le (by omega) (by omega)
          · have h1 : data.length - (i + b) + b - 1 = data.length - i - 1 := by
              omega
            have h2 : data.length - i + b - 1 = data.length - i - 1 + b := by
              omega
            rw [h1, h2, Nat.add_div_right _ hb]
        rw [← hcount, List.range_succ_eq_map, List.map_cons, List.map_map]
        congr 1
        · simp
        · apply List.map_congr_left
          intro k _
          show (data.drop (i + b + k * b)).take b
            = (data.drop (i + (k + 1) * b)).take b
          congr 2
          ring
      · rename_i h
        push_neg at h
        have hle : data.length ≤ i := h hb
        have hz : (data.length - i + b - 1) / b = 0 :=
          Nat.div_eq_of_lt (by omega)
        rw [hz]
        rfl
  intro i
  exact H (data.length - i) i le_rfl

/-- Flattening the chunks produced from index `i` recovers `data.drop i`. -/
lemma batchLoop_flatten {α : Type u} (b : Nat) (data : List α)
    (hb : 0 < b) :
    ∀ i, (batchLoop b data i).flatten = data.drop i := by
  have H : ∀ m i, data.length - i ≤ m →
      (batchLoop b data i).flatten = data.drop i := by
    intro m
    induction m with
    | zero =>
      intro i hi
      rw [batchLoop, dif_neg (by omega), List.drop_eq_nil_of_le (by omega)]
      rfl
    | succ m ih =>
      intro i hi
      rw [batchLoop]
      split
      · rename_i h
        rw [List.flatten_cons, ih (i + b) (by omega)]
        rw [show data.drop (i + b) = (data.drop i).drop b by
          rw [List.drop_drop]]
        exact List.take_append_drop b (data.drop i)
      · rename_i h
        push_neg at h
        rw [List.drop_eq_nil_of_le (h hb)]
        rfl
  intro i
  exact H (data.length - i) i le_rfl

/-- Closed form of `batchCall`: the slice at `k * b` for each chunk
index `k` below `⌈n/b⌉`. -/
lemma batchCall_eq_map {α : Type u} (b : Nat) (data : List α)
    (hb : 0 < b) :
    batchCall b data
      = (List.range ((data.length + b - 1) / b)).map
          (fun k => (data.drop (k * b)).take b) := by
  rw [batchCall, batchLoop_eq_map b data hb 0]
  simp

/-- Closed form: `windowLoop` from index `i` is the list of slices
`data[i + k*t : i + k*t + s]` for `k` below the remaining window count. -/
lemma windowLoop_eq_map {α : Type u} (s t : Nat) (data : List α)
    (ht : 0 < t) :
    ∀ i, windowLoop s t data i
      = (List.range (if i + s ≤ data.length
            then (data.length - s - i) / t + 1 else 0)).map
          (fun k => (data.drop (i + k * t)).take s) := by
  have H : ∀ m i, data.length + 1 - i ≤ m → windowLoop s t data i
      = (List.range (if i + s ≤ data.length
            then (data.length - s - i) / t + 1 else 0)).map
          (fun k => (data.drop (i + k * t)).take s) := by
    intro m
    induction m with
    | zero =>
      intro i hi
      rw [windowLoop, dif_neg (by omega), if_neg (by omega)]
      rfl
    | succ m ih =>
      intro i hi
      rw [windowLoop]
      split
      · rename_i h
        rw [ih (i + t) (by omega)]
        have hcount : (if i + t + s ≤ data.length
              then (data.length - s - (i + t)) / t + 1 else 0) + 1
            = (data.length - s - i) / t + 1 := by
          by_cases hc : i + t + s ≤ data.length
          · have h1 : data.length - s - (i + t)
                = data.length - s - i - t := by omega
            have h2 : data.length - s - i
                = data.length - s - i - t + t := by omega
            have h3 : (data.length - s - i) / t
                = (data.length - s - i - t) / t + 1 := by
              conv_lhs => rw [h2]
              rw [Nat.add_div_right _ ht]
            rw [if_pos hc, h1, h3]
          · rw [if_neg hc]
            have h0 : (data.length - s - i) / t = 0 :=
              Nat.div_eq_of_lt (by omega)
            rw [h0]
        rw [if_pos h.2, ← hcount, List.range_succ_eq_map, List.map_cons,
          List.map_map]
        congr 1
        · simp
        · apply List.map_congr_left
          intro k _
          show (data.drop (i + t + k * t)).take s
            = (data.drop (i + (k + 1) * t)).take s
          congr 2
          ring
      · rename_i h
        push_neg at h
        have hgt := h ht
        rw [if_neg (by omega)]
        rfl
  intro i
  exact H (data.length + 1 - i) i le_rfl

@[simp] lemma joinSnd_nil {α : Type u} {κ : Type v} :
    joinSnd ([] : List (κ × List α)) = [] := rfl

@[simp] lemma joinSnd_cons {α : Type u} {κ : Type v} (p : κ × List α)
    (rest : List (κ × List α)) :
    joinSnd (p :: rest) = p.2 ++ joinSnd rest := rfl

/-- Appending one element to its group permutes the total contents by
one appended element. -/
lemma joinSnd_groupsInsert {α : Type u} {κ : Type v} [DecidableEq κ]
    (k : κ) (x : α) :
    ∀ g : List (κ × List α),
      (joinSnd (groupsInsert g k x)).Perm (joinSnd g ++ [x]) := by
  intro g
  induction g with
  | nil => simp [groupsInsert]
  | cons q rest ih =>
    obtain ⟨k', xs⟩ := q
    rw [groupsInsert]
    by_cases hk : k' = k
    · rw [if_pos hk]
      simp only [joinSnd_cons, List.append_assoc]
      exact List.Perm.append_left xs
        (List.perm_append_singleton x (joinSnd rest)).symm
    · rw [if_neg hk]
      simp only [joinSnd_cons, List.append_assoc]
      exact List.Perm.append_left xs ih

/-- The `groups` invariant of `GroupByTransform.__call__`: if
`groupByAux` starting from `g` succeeds, the final contents are a
permutation of `g`'s contents followed by the remaining input. -/
lemma groupByAux_perm {α : Type u} {κ : Type v} [DecidableEq κ]
    (keyOf : α → Except PyError κ) :
    ∀ (data : List α) (g out : List (κ × List α)),
      groupByAux keyOf data g = Except.ok out →
      (joinSnd out).Perm (joinSnd g ++ data) := by
  intro data
  induction data with
  | nil =>
    intro g out h
    simp only [groupByAux] at h
    injection h with h
    subst h
    simp
  | cons x xs ih =>
    intro g out h
    simp only [groupByAux] at h
    cases hk : keyOf x with
    | error e =>
      rw [hk] at h
      simp at h
    | ok k =>
      rw [hk] at h
      have hperm := ih (groupsInsert g k x) out h
      have h3 : (joinSnd g ++ [x]) ++ xs = joinSnd g ++ (x :: xs) := by
        simp
      rw [← h3]
      exact hperm.trans ((joinSnd_groupsInsert k x g).append_right xs)

/-- Invariant step: `groupsInsert` keeps every group's list a sublist of the processed
prefix extended by the new element. -/
lemma groupsInsert_sublist {α : Type u} {κ : Type v} [DecidableEq κ]
    {p : List α} (x : α) (k : κ) :
    ∀ g : List (κ × List α),
      (∀ pr ∈ g, pr.2.Sublist p) →
      ∀ pr ∈ groupsInsert g k x, pr.2.Sublist (p ++ [x]) := by
  intro g
  induction g with
  | nil =>
    intro _ pr hpr
    simp only [groupsInsert, List.mem_singleton] at hpr
    subst hpr
    exact List.sublist_append_right p [x]
  | cons q rest ih =>
    obtain ⟨k', xs⟩ := q
    intro hg pr hpr
    rw [groupsInsert] at hpr
    by_cases hk : k' = k
    · rw [if_pos hk] at hpr
      rcases List.mem_cons.mp hpr with h1 | h1
      · subst h1
        exact List.Sublist.append (hg (k', xs) (List.mem_cons_self _ _))
          (List.Sublist.refl [x])
      · exact (hg pr (List.mem_cons_of_mem _ h1)).trans
          (List.sublist_append_left p [x])
    · rw [if_neg hk] at hpr
      rcases List.mem_cons.mp hpr with h1 | h1
      · subst h1
        exact (hg (k', xs) (List.mem_cons_self _ _)).trans
          (List.sublist_append_left p [x])
      · exact ih (fun pr hpr => hg pr (List.mem_cons_of_mem _ hpr)) pr h1

/-- Order preservation through the whole loop: every group's list is a
sublist of (processed prefix ++ remaining input). -/
lemma groupByAux_sublist {α : Type u} {κ : Type v} [DecidableEq κ]
    (keyOf : α → Except PyError κ) :
    ∀ (data p : List α) (g out : List (κ × List α)),
      (∀ pr ∈ g, pr.2.Sublist p) →
      groupByAux keyOf data g = Except.ok out →
      ∀ pr ∈ out, pr.2.Sublist (p ++ data) := by
  intro data
  induction data with
  | nil =>
    intro p g out hg h
    simp only [groupByAux] at h
    injection h with h
    subst h
    simpa using hg
  | cons x xs ih =>
    intro p g out hg h
    simp only [groupByAux] at h
    cases hk : keyOf x with
    | error e =>
      rw [hk] at h
      simp at h
    | ok k =>
      rw [hk] at h
      have hres := ih (p ++ [x]) (groupsInsert g k x) out
        (groupsInsert_sublist x k g hg) h
      intro pr hpr
      have h2 := hres pr hpr
      rwa [List.append_assoc] at h2

/-- The key list after `groupsInsert`: unchanged for a seen key, the new
key appended at the end for an unseen one (first-seen order). -/
lemma groupsInsert_keys {α : Type u} {κ : Type v} [DecidableEq κ]
    (k : κ) (x : α) :
    ∀ g : List (κ × List α),
      (groupsInsert g k x).map Prod.fst
        = if k ∈ g.map Prod.fst then g.map Prod.fst
          else g.map Prod.fst ++ [k] := by
  intro g
  induction g with
  | nil => simp [groupsInsert]
  | cons q rest ih =>
    obtain ⟨k', xs⟩ := q
    rw [groupsInsert]
    by_cases hk : k' = k
    · rw [if_pos hk]
      subst hk
      simp
    · rw [if_neg hk]
      simp only [List.map_cons, ih]
      by_cases hmem : k ∈ rest.map Prod.fst
      · rw [if_pos hmem, if_pos (by simp [hmem])]
      · rw [if_neg hmem,
          if_neg (by simp [hmem, Ne.symm hk])]
        simp

/-- The group keys stay pairwise distinct through the loop. -/
lemma groupByAux_keys_nodup {α : Type u} {κ : Type v} [DecidableEq κ]
    (keyOf : α → Except PyError κ) :
    ∀ (data : List α) (g out : List (κ × List α)),
      (g.map Prod.fst).Nodup →
      groupByAux keyOf data g = Except.ok out →
      (out.map Prod.fst).Nodup := by
  intro data
  induction data with
  | nil =>
    intro g out hg h
    simp only [groupByAux] at h
    injection h with h
    subst h
    exact hg
  | cons x xs ih =>
    intro g out hg h
    simp only [groupByAux] at h
    cases hk : keyOf x with
    | error e =>
      rw [hk] at h
      simp at h
    | ok k =>
      rw [hk] at h
      refine ih (groupsInsert g k x) out ?_ h
      rw [groupsInsert_keys]
      split
      · exact hg
      · rename_i hmem
        simp [List.nodup_append, hg, hmem]

/-! ## Theorems for the claims -/

/-- Claim C1: for every reducer, applying a `Reduce` transform constructed
without an initial value (so `self.initial` holds the default `None`) to
an empty input sequence fails with the spec's `EmptySequenceError` (the
`StopIteration` raised by `next` on the empty iterator). -/
theorem reduce_no_initial_empty_fails :
    ∀ f : PyVal → PyVal → PyVal,
      reduceCall f PyVal.none [] = Except.error PyError.emptySequenceError := by
  intro f
  rfl

/-- Claim C2: for every pipeline and every right-hand operand that is neither a
`Pipeline` nor a callable, `Pipeline.__or__` fails with the spec's
`UnsupportedCompositionError` (the `TypeError` raised by the source). -/
theorem pipeline_or_unrecognized_fails {α : Type u} {β : Type v} :
    ∀ (transforms : List (α → α)) (v : β),
      pipelineOr transforms (Operand.other v)
        = Except.error PyError.unsupportedCompositionError := by
  intro transforms v
  rfl

/-- Claim C6: for all transforms `f`, `g`, `h` and every input `x`, the
left-nested composition `(f | g) | h` applied to `x` equals
`h (g (f x))`, and the right-nested composition `f | (g | h)` agrees
with it on every input (observational associativity). -/
theorem composed_transform_assoc {α : Type u} {β : Type v} {γ : Type w}
    {δ : Type x} :
    ∀ (f : α → β) (g : β → γ) (h : γ → δ) (x : α),
      (transformOr (transformOr f g).call h).call x = h (g (f x))
        ∧ (transformOr f (transformOr g h).call).call x
            = (transformOr (transformOr f g).call h).call x := by
  intro f g h x
  exact ⟨rfl, rfl⟩

/-- Claim C8: materialization never caches: `LazyPipeline.collect` never caches across calls: a producer
source is invoked exactly once per materialization (the world state
advances by exactly one producer step) and the transforms are re-applied
in order to the freshly resolved value; a value source is used as
stored.  In particular materializing the same pipeline twice over a
state-changing producer yields the producer's two successive results. -/
theorem lazy_collect_no_caching {σ : Type u} {α : Type v} :
    ∀ (f : σ → α × σ) (transforms : List (α → α)) (v : α) (s : σ),
      (LazyPipeline.collect ⟨Source.producer f, transforms⟩ s
          = (transforms.foldl (fun result t => t result) (f s).1, (f s).2))
        ∧ (LazyPipeline.collect ⟨Source.value v, transforms⟩ s
            = (transforms.foldl (fun result t => t result) v, s))
        ∧ (LazyPipeline.collect ⟨Source.producer f, ([] : List (α → α))⟩ s
            = f s)
        ∧ (LazyPipeline.collect ⟨Source.producer f, ([] : List (α → α))⟩
              (f s).2
            = f (f s).2) := by
  intro f transforms v s
  refine ⟨rfl, rfl, ?_, ?_⟩ <;> simp [LazyPipeline.collect]

/-- Claim C9 (as stated, refuted): a `Reduce` constructed with the explicitly
supplied initial value `None` — a falsy value the claim includes — does
not return that initial value on an empty input: since the source tests
`self.initial is not None`, a supplied `None` is indistinguishable from
an omitted one and the call fails instead of returning. -/
theorem reduce_initial_none_counterexample :
    reduceCall (fun a _ => a) PyVal.none []
        = Except.error PyError.emptySequenceError
      ∧ reduceCall (fun a _ => a) PyVal.none [] ≠ Except.ok PyVal.none := by
  refine ⟨rfl, ?_⟩
  intro hcontra
  simp [reduceCall] at hcontra

/-- Claim C9 (amended): for every reducer and every supplied non-`None` initial
value — including falsy ones such as zero — applying `Reduce` with that
initial to an empty input returns the initial value unchanged. -/
theorem reduce_with_initial_empty_returns_initial
    (f : PyVal → PyVal → PyVal) (v : PyVal) (hv : v ≠ PyVal.none) :
    reduceCall f v [] = Except.ok v := by
  unfold reduceCall
  rw [if_pos hv]
  rfl

/-- Witness for C9 (amended) at the falsy initial value `0`. -/
theorem reduce_with_initial_empty_returns_initial_witness :
    reduceCall (fun a _ => a) (PyVal.int 0) [] = Except.ok (PyVal.int 0) :=
  reduce_with_initial_empty_returns_initial (fun a _ => a) (PyVal.int 0)
    (by decide)

/-- Claim C3 (evaluated at the failing input): with the default key function
`lambda x: id(x)`, applying the same `Cache` to two value-equal but
distinct objects (same `val`, different `addr`) is a miss on the second
apply — the second object is returned and stored under a second key —
whereas the claim requires a hit returning the value stored for the
first. -/
theorem cache_default_key_value_equal_miss :
    ((⟨100, [1, 2]⟩ : PyObj (List Nat)).val
        = (⟨200, [1, 2]⟩ : PyObj (List Nat)).val)
      ∧ ((⟨100, [1, 2]⟩ : PyObj (List Nat)).addr
          ≠ (⟨200, [1, 2]⟩ : PyObj (List Nat)).addr)
      ∧ (cacheApply defaultCacheKey
            (cacheApply defaultCacheKey []
              (⟨100, [1, 2]⟩ : PyObj (List Nat))).2
            ⟨200, [1, 2]⟩).1
          = ⟨200, [1, 2]⟩
      ∧ (cacheApply defaultCacheKey
            (cacheApply defaultCacheKey []
              (⟨100, [1, 2]⟩ : PyObj (List Nat))).2
            ⟨200, [1, 2]⟩).2.length
          = 2 := by
  refine ⟨rfl, by decide, rfl, rfl⟩

/-- Claim C5: for every `batch_size` `b > 0`, `Batch` produces exactly
`⌈n/b⌉` chunks whose concatenation is the input; every chunk but the last
has length `b`, and the last has length `n mod b` (or `b` when
`n mod b = 0`, which with a last chunk present forces `n > 0`). -/
theorem batch_spec {α : Type u} (b : Nat) (hb : 0 < b) (data : List α) :
    (batchCall b data).length = (data.length + b - 1) / b
      ∧ (batchCall b data).flatten = data
      ∧ (∀ i (h : i < (batchCall b data).length),
          i + 1 < (batchCall b data).length →
            ((batchCall b data).get ⟨i, h⟩).length = b)
      ∧ (∀ i (h : i < (batchCall b data).length),
          i + 1 = (batchCall b data).length →
            ((batchCall b data).get ⟨i, h⟩).length
              = if data.length % b = 0 then b else data.length % b) := by
  have hchar := batchCall_eq_map b data hb
  have hlen : (batchCall b data).length = (data.length + b - 1) / b := by
    rw [hchar, List.length_map, List.length_range]
  have hget : ∀ i (h : i < (batchCall b data).length),
      (batchCall b data).get ⟨i, h⟩ = (data.drop (i * b)).take b := by
    intro i h
    simp only [List.get_eq_getElem, hchar, List.getElem_map,
      List.getElem_range]
  refine ⟨hlen, ?_, ?_, ?_⟩
  · rw [batchCall, batchLoop_flatten b data hb 0, List.drop_zero]
  · intro i h hlt
    rw [hget i h, List.length_take, List.length_drop]
    have hcnt : i + 2 ≤ (data.length + b - 1) / b := by
      rw [hlen] at hlt
      omega
    have hmul : (i + 2) * b ≤ data.length + b - 1 :=
      (Nat.le_div_iff_mul_le hb).mp hcnt
    have hexp : (i + 2) * b = i * b + b + b := by ring
    apply Nat.min_eq_left
    omega
  · intro i h heq
    rw [hget i h, List.length_take, List.length_drop]
    rw [hlen] at heq
    have hA : ((data.length + b - 1) / b) * b ≤ data.length + b - 1 :=
      Nat.div_mul_le_self _ _
    have hB : data.length + b - 1 < (((data.length + b - 1) / b) + 1) * b :=
      (Nat.div_lt_iff_lt_mul hb).mp (Nat.lt_succ_self _)
    rw [← heq] at hA hB
    have hA' : i * b + b ≤ data.length + b - 1 := by
      calc i * b + b = (i + 1) * b := by ring
        _ ≤ _ := hA
    have hB' : data.length + b - 1 < i * b + b + b := by
      calc data.length + b - 1 < (i + 1 + 1) * b := hB
        _ = i * b + b + b := by ring
    have hZle : i * b ≤ data.length := by omega
    have hd1 : 1 ≤ data.length - i * b := by omega
    have hd2 : data.length - i * b ≤ b := by omega
    have hmod : (data.length - i * b) % b = data.length % b := by
      rw [Nat.mul_comm i b]
      exact Nat.sub_mul_mod (by rw [Nat.mul_comm]; exact hZle)
    rcases eq_or_lt_of_le hd2 with hdb | hdb
    · have h0 : data.length % b = 0 := by
        rw [← hmod, hdb]
        exact Nat.mod_self b
      rw [if_pos h0, hdb]
      exact Nat.min_self b
    · have h0 : data.length % b = data.length - i * b := by
        rw [← hmod]
        exact Nat.mod_eq_of_lt hdb
      have hne : ¬ data.length % b = 0 := by
        rw [h0]
        omega
      rw [if_neg hne, h0]
      exact Nat.min_eq_right hdb.le

/-- Witness for C5: `Batch(batch_size=3)` on `[1,2,3,4,5,6,7]`
(the spec's own scenario: three chunks, `[[1,2,3],[4,5,6],[7]]`). -/
theorem batch_spec_witness :
    (batchCall 3 [1, 2, 3, 4, 5, 6, 7]).length = (7 + 3 - 1) / 3
      ∧ (batchCall 3 [1, 2, 3, 4, 5, 6, 7]).flatten = [1, 2, 3, 4, 5, 6, 7]
      ∧ (∀ i (h : i < (batchCall 3 [1, 2, 3, 4, 5, 6, 7]).length),
          i + 1 < (batchCall 3 [1, 2, 3, 4, 5, 6, 7]).length →
            ((batchCall 3 [1, 2, 3, 4, 5, 6, 7]).get ⟨i, h⟩).length = 3)
      ∧ (∀ i (h : i < (batchCall 3 [1, 2, 3, 4, 5, 6, 7]).length),
          i + 1 = (batchCall 3 [1, 2, 3, 4, 5, 6, 7]).length →
            ((batchCall 3 [1, 2, 3, 4, 5, 6, 7]).get ⟨i, h⟩).length
              = if ([1, 2, 3, 4, 5, 6, 7] : List Nat).length % 3 = 0
                then 3 else ([1, 2, 3, 4, 5, 6, 7] : List Nat).length % 3) :=
  batch_spec 3 (by decide) [1, 2, 3, 4, 5, 6, 7]

/-- Claim C4: for every `size` `s > 0`, `step` `t > 0` and input of length `n`,
`Window` produces exactly `max 0 (⌊(n−s)/t⌋+1)` windows (floor division
over `ℤ`), and the `i`-th window is exactly the contiguous slice of
length `s` starting at index `i·t`. -/
theorem window_spec {α : Type u} (s t : Nat) (hs : 0 < s) (ht : 0 < t)
    (data : List α) :
    ((windowCall s (Option.some t) data).length : Int)
        = max 0 (((data.length : Int) - (s : Int)).fdiv (t : Int) + 1)
      ∧ ∀ i (h : i < (windowCall s (Option.some t) data).length),
          (windowCall s (Option.some t) data).get ⟨i, h⟩
              = (data.drop (i * t)).take s
            ∧ ((windowCall s (Option.some t) data).get ⟨i, h⟩).length
                = s := by
  have hstep : windowStep s (Option.some t) = t := by
    simp [windowStep, ht.ne']
  have hchar : windowCall s (Option.some t) data
      = (List.range (if s ≤ data.length
            then (data.length - s) / t + 1 else 0)).map
          (fun k => (data.drop (k * t)).take s) := by
    rw [windowCall, hstep, windowLoop_eq_map s t data ht 0]
    simp
  have hlen : (windowCall s (Option.some t) data).length
      = if s ≤ data.length then (data.length - s) / t + 1 else 0 := by
    rw [hchar, List.length_map, List.length_range]
  constructor
  · rw [hlen]
    by_cases hc : s ≤ data.length
    · rw [if_pos hc]
      have hnn : (data.length : Int) - (s : Int)
          = ((data.length - s : Nat) : Int) := by omega
      have h1 : ((data.length : Int) - (s : Int)).fdiv (t : Int)
          = (((data.length - s) / t : Nat) : Int) := by
        rw [hnn, ← Int.ofNat_fdiv]
      have hmax : max (0 : Int) ((((data.length - s) / t : Nat) : Int) + 1)
          = (((data.length - s) / t : Nat) : Int) + 1 :=
        max_eq_right (by positivity)
      rw [h1, hmax]
      push_cast
      ring
    · rw [if_neg hc]
      have hneg : (data.length : Int) - (s : Int) < 0 := by omega
      have hf := Int.fdiv_neg' hneg (by omega : (0 : Int) < (t : Int))
      rw [max_eq_left (by omega)]
      simp
  · intro i h
    have hget : (windowCall s (Option.some t) data).get ⟨i, h⟩
        = (data.drop (i * t)).take s := by
      simp only [List.get_eq_getElem, hchar, List.getElem_map,
        List.getElem_range]
    refine ⟨hget, ?_⟩
    rw [hget, List.length_take, List.length_drop]
    rw [hlen] at h
    by_cases hc : s ≤ data.length
    · rw [if_pos hc] at h
      have hit : i ≤ (data.length - s) / t := by omega
      have hmul := (Nat.le_div_iff_mul_le ht).mp hit
      apply Nat.min_eq_left
      omega
    · rw [if_neg hc] at h
      exact absurd h (Nat.not_lt_zero i)

/-- Witness for C4: `Window(size=3, step=2)` on `[1,2,3,4,5,6]`
(the spec's own scenario: windows `[[1,2,3],[3,4,5]]`). -/
theorem window_spec_witness :
    ((windowCall 3 (Option.some 2) ([1, 2, 3, 4, 5, 6] : List Nat)).length
          : Int)
        = max 0 (((([1, 2, 3, 4, 5, 6] : List Nat).length : Int)
            - ((3 : Nat) : Int)).fdiv ((2 : Nat) : Int) + 1)
      ∧ ∀ i (h : i < (windowCall 3 (Option.some 2)
            ([1, 2, 3, 4, 5, 6] : List Nat)).length),
          (windowCall 3 (Option.some 2)
                ([1, 2, 3, 4, 5, 6] : List Nat)).get ⟨i, h⟩
              = (([1, 2, 3, 4, 5, 6] : List Nat).drop (i * 2)).take 3
            ∧ ((windowCall 3 (Option.some 2)
                  ([1, 2, 3, 4, 5, 6] : List Nat)).get ⟨i, h⟩).length
                = 3 :=
  window_spec 3 2 (by decide) (by decide) [1, 2, 3, 4, 5, 6]

/-- Claim C7: for every key extractor (in the source, either a field-name
string — `fieldKey` — or a key-function — `fnKey`) and every input,
a successful `GroupBy` partitions the input completely: the
concatenation of the groups' element lists, taken in the result's
(first-seen, by `groupsInsert`) key order, is a permutation of the
input; every group's list keeps the input's relative order (it is a
sublist of the input); and the group keys are pairwise distinct, so each
input element lands in exactly one group. -/
theorem groupby_partitions {α : Type u} {κ : Type v} [DecidableEq κ]
    (keyOf : α → Except PyError κ) (data : List α)
    (out : List (κ × List α))
    (h : groupByCall keyOf data = Except.ok out) :
    (joinSnd out).Perm data
      ∧ (∀ pr ∈ out, pr.2.Sublist data)
      ∧ (out.map Prod.fst).Nodup := by
  refine ⟨?_, ?_, ?_⟩
  · have hperm := groupByAux_perm keyOf data [] out h
    simpa using hperm
  · have hsub := groupByAux_sublist keyOf data [] [] out (by simp) h
    simpa using hsub
  · exact groupByAux_keys_nodup keyOf data [] out (by simp) h

/-- Witness for C7: grouping three records by the field name `"dept"`. -/
theorem groupby_partitions_witness :
    (joinSnd [((1 : Nat),
          [[("dept", (1 : Nat)), ("id", 10)], [("dept", 1), ("id", 30)]]),
        (2, [[("dept", 2), ("id", 20)]])]).Perm
        [[("dept", (1 : Nat)), ("id", (10 : Nat))],
          [("dept", 2), ("id", 20)], [("dept", 1), ("id", 30)]]
      ∧ (∀ pr ∈ [((1 : Nat),
            [[("dept", (1 : Nat)), ("id", 10)], [("dept", 1), ("id", 30)]]),
          (2, [[("dept", 2), ("id", 20)]])],
          pr.2.Sublist
            [[("dept", (1 : Nat)), ("id", (10 : Nat))],
              [("dept", 2), ("id", 20)], [("dept", 1), ("id", 30)]])
      ∧ (([((1 : Nat),
            [[("dept", (1 : Nat)), ("id", 10)], [("dept", 1), ("id", 30)]]),
          (2, [[("dept", 2), ("id", 20)]])]).map Prod.fst).Nodup :=
  groupby_partitions (fieldKey "dept")
    [[("dept", 1), ("id", 10)], [("dept", 2), ("id", 20)],
      [("dept", 1), ("id", 30)]]
    [(1, [[("dept", 1), ("id", 10)], [("dept", 1), ("id", 30)]]),
      (2, [[("dept", 2), ("id", 20)]])]
    (by rfl)

/-- Claim C10: a `Window` constructed with `step = 0` behaves exactly like one
constructed with `step = size`: the line `self.step = step or size`
replaces the falsy `0` by `size` at construction time, so no error is
raised and the outputs coincide on every input. -/
theorem window_step_zero_eq_step_size {α : Type u} (size : Nat)
    (hs : 0 < size) (data : List α) :
    windowCall size (Option.some 0) data
      = windowCall size (Option.some size) data := by
  simp [windowCall, windowStep]

/-- Witness for C10 at `size = 3` on a concrete list. -/
theorem window_step_zero_eq_step_size_witness :
    (0 : Nat) < 3
      ∧ windowCall 3 (Option.some 0) [1, 2, 3, 4, 5]
          = windowCall 3 (Option.some 3) [1, 2, 3, 4, 5] :=
  ⟨by decide, window_step_zero_eq_step_size 3 (by decide) [1, 2, 3, 4, 5]⟩

end Transformers
